import Mathlib

/-!
Verification of the call-graph / control-flow export pipeline of the
androguard command surface (`main.py`).

The shallow embedding below follows `export_apps_to_format` and the
call-graph-only path `androcg_main`:

* A `Method` carries the data the loop reads from the bytecode collaborator:
  its signature string (`"{class}{name}{descriptor}"`), its instruction count
  (only `= 0` vs `≠ 0` matters, line 305), and the aggregated CFG returned by
  `method2dotaggregated` (nodes, edges, per-node feature map).
* `processMethods` is the per-DEX method loop (lines 286-325): regex filter,
  zero-instruction skip, registration into the `methods` dict and the
  `method_names` list, the `assert len(cfg_features) == cfg.number_of_nodes()`
  (modelled as an aborting `false` flag), and the comma-separated streaming of
  entries (modelled as a list of `Chunk`s, one per `file.write`).
* `relabelStep` is the relabeling block (lines 350-368):
  `nx.convert_node_labels_to_integers` (each node becomes its position in the
  node list), then the loop over the parallel `(label, is_external)` tables
  building `rename_nodes` — externals get fresh counter ids and append their
  label to `method_names`, internals use `method_names.index(label)`, whose
  `ValueError` on a missing label is modelled as `none` — and finally
  `nx.relabel_nodes`, which merges nodes that map to the same id (a DiGraph
  keeps at most one copy of a node or edge: `dedupFirst`).
* `runGo / runExport` drive the per-DEX loop (line 248): note that the
  document terminator (`closeCg`) and the relabeling run once per DEX.
* `writerKey` is the `rsplit(".", 1)` / `rsplit(".", 2)` extension dispatch
  shared by `androcg_main` (lines 121-127) and the orchestrator
  (lines 228-233); `none` models the `IndexError` on a dot-free name.
* The decompiler/jar side effects (lines 252-281) touch neither the call-graph
  file nor `data.json` and are not modelled.
-/

set_option autoImplicit false

namespace AndroExport

/-- Opaque per-node feature vector attached by the bytecode collaborator. -/
abbrev Feature := List Int

/-- One method's aggregated control-flow graph as consumed at lines 312-318:
node ids, edge list (in graph order, as `nx.to_pandas_edgelist` reads it) and
the `features` node-attribute map (`nx.get_node_attributes`). -/
structure Cfg where
  nodes : List Nat
  edges : List (Nat × Nat)
  features : List (Nat × Feature)
deriving DecidableEq

/-- One method as seen by the export loop. -/
structure Method where
  sig : String
  instructionCount : Nat
  cfg : Cfg
deriving DecidableEq

/-- One DEX object yielded by `s.get_objects_dex()`: its method list in
`vm.get_methods()` order. -/
abbrev Dex := List Method

/-- The call graph state: node list (in `G.nodes` iteration order) and edge
list. A networkx DiGraph holds each node and each (source, target) pair at
most once. -/
structure CGraph where
  nodes : List Nat
  edges : List (Nat × Nat)
deriving DecidableEq

/-- One entry of `acfg_list`, the dict written at line 320/325:
`{"edges": [sources, targets], "features": {...}}`. -/
structure AcfgEntry where
  edgesSrc : List Nat
  edgesDst : List Nat
  features : List (Nat × Feature)
deriving DecidableEq

/-- One `file.write` of the JSON corpus writer. `openList` is the opening
`{"acfg_list": [` (line 247), `sep` the `",\n"` between entries (line 322),
`entry` one `json.dumps(data)` (line 325), and `closeCg` the terminator
written at lines 370-371: it closes the array and carries `cg_edges` (source
list, target list) and the `method_names` table. -/
inductive Chunk where
  | openList : Chunk
  | sep : Chunk
  | entry : AcfgEntry → Chunk
  | closeCg : List Nat → List Nat → List String → Chunk
deriving DecidableEq

/-- Keep the first occurrence of each element, dropping later duplicates:
how a networkx (Di)Graph behaves when `add_node` / `add_edge` see a repeat. -/
def dedupFirstAux {α : Type} [DecidableEq α] : List α → List α → List α
  | [], _ => []
  | a :: as, seen =>
    if a ∈ seen then dedupFirstAux as seen else a :: dedupFirstAux as (a :: seen)

/-- The list `dedupFirst l` is `l` without its later duplicates. -/
def dedupFirst {α : Type} [DecidableEq α] (l : List α) : List α := dedupFirstAux l []

/-- Position of the first occurrence of `v` in `xs` (the integer that
`nx.convert_node_labels_to_integers` assigns to node `v`); `xs.length` when
`v` is absent (unreachable for a graph's own edges). -/
def posIn : List Nat → Nat → Nat
  | [], _ => 0
  | x :: xs, v => if x = v then 0 else posIn xs v + 1

/-- Model of `nx.convert_node_labels_to_integers(CG)` (line 354): every node becomes
its position in the node iteration order. -/
def convertNodeLabelsToIntegers (g : CGraph) : CGraph :=
  ⟨List.range g.nodes.length,
    g.edges.map (fun e => (posIn g.nodes e.1, posIn g.nodes e.2))⟩

/-- Model of `list.index(a)` as used on `method_names` (line 362): index of the first
occurrence, `none` for the `ValueError` on a missing element. -/
def firstIdx (xs : List String) (a : String) : Option Nat :=
  match xs with
  | [] => none
  | x :: rest => if x = a then some 0 else (firstIdx rest a).map (· + 1)

/-- The loop of lines 355-363 over the parallel `(label, is_external)` node
tables: node `i` is renamed to the running `counter` if external (appending
its label to `method_names`), else to `method_names.index(label)`.
Returns the `rename_nodes` association list and the grown name table, or
`none` on the fatal `ValueError` of a failed internal lookup. -/
def relabelLoopGo : List (String × Bool) → Nat → Nat → List String →
    Option (List (Nat × Nat) × List String)
  | [], _, _, names => some ([], names)
  | (lbl, isExt) :: rest, i, counter, names =>
    if isExt then
      (relabelLoopGo rest (i + 1) (counter + 1) (names ++ [lbl])).map
        (fun r => ((i, counter) :: r.1, r.2))
    else
      match firstIdx names lbl with
      | some j =>
        (relabelLoopGo rest (i + 1) counter names).map
          (fun r => ((i, j) :: r.1, r.2))
      | none => none

/-- Apply the `rename_nodes` mapping; nodes outside the dict keep their id
(the `nx.relabel_nodes` copy semantics). -/
def applyRename (ren : List (Nat × Nat)) (v : Nat) : Nat := (ren.lookup v).getD v

/-- Model of `nx.relabel_nodes(CG, rename_nodes)` on a DiGraph: map every node and
edge, collapsing anything that becomes identical. -/
def relabelGraph (f : Nat → Nat) (g : CGraph) : CGraph :=
  ⟨dedupFirst (g.nodes.map f),
    dedupFirst (g.edges.map (fun e => (f e.1, f e.2)))⟩

/-- Lines 350-368 for one DEX iteration: densify the node labels, build
`rename_nodes` (counter starts at `num_local_functions = len(method_names)`),
relabel, and read the edge list back (`nx.to_pandas_edgelist`: the `source`
column, then the `target` column). -/
def relabelStep (cgNodes : List (String × Bool)) (names : List String)
    (g : CGraph) : Option (List String × CGraph × List Nat × List Nat) :=
  match relabelLoopGo cgNodes 0 names.length names with
  | some (ren, names2) =>
    some (names2,
      relabelGraph (applyRename ren) (convertNodeLabelsToIntegers g),
      (relabelGraph (applyRename ren) (convertNodeLabelsToIntegers g)).edges.map Prod.fst,
      (relabelGraph (applyRename ren) (convertNodeLabelsToIntegers g)).edges.map Prod.snd)
  | none => none

/-- Lines 287-305: the optional compiled filter is tested against the
signature, then methods with zero instructions are skipped. -/
def qualifiesB (flt : Option (String → Bool)) (m : Method) : Bool :=
  (match flt with
   | some f => f m.sig
   | none => true) && !(m.instructionCount == 0)

/-- The asserted consistency check of line 319:
`len(cfg_features) == cfg.number_of_nodes()`. -/
def validCfgB (m : Method) : Bool := m.cfg.features.length == m.cfg.nodes.length

/-- Lines 314-320: project the CFG into the streamed dict. -/
def mkEntry (c : Cfg) : AcfgEntry :=
  ⟨c.edges.map Prod.fst, c.edges.map Prod.snd, c.features⟩

/-- The cross-DEX mutable state: the `methods` OrderedDict and the
`method_names` list (lines 245-246). -/
structure PmState where
  dict : List (String × Nat)
  names : List String
deriving DecidableEq

/-- Update `methods[name] = id` on an OrderedDict: overwrite in place or append. -/
def dictInsert (d : List (String × Nat)) (k : String) (v : Nat) :
    List (String × Nat) :=
  if (d.lookup k).isSome then d.map (fun p => if p.1 = k then (k, v) else p)
  else d ++ [(k, v)]

/-- The method loop of lines 286-325 for one DEX. Produces the written
chunks, the updated registration state, and `false` exactly when the line-319
assert fired (which raises out of the function: nothing further runs).
Note the registration (lines 307-310) precedes the assert, so a failing
method is still registered; the entry write (lines 321-325) follows it. -/
def processMethods (flt : Option (String → Bool)) :
    List Method → PmState → Bool → List Chunk × PmState × Bool
  | [], st, _ => ([], st, true)
  | m :: rest, st, first =>
    if qualifiesB flt m then
      if validCfgB m then
        match processMethods flt rest
            ⟨dictInsert st.dict m.sig st.dict.length, st.names ++ [m.sig]⟩ false with
        | (cs, st2, ok) =>
          ((if first then [Chunk.entry (mkEntry m.cfg)]
            else [Chunk.sep, Chunk.entry (mkEntry m.cfg)]) ++ cs, st2, ok)
      else ([], ⟨dictInsert st.dict m.sig st.dict.length, st.names ++ [m.sig]⟩, false)
    else processMethods flt rest st first

/-- One iteration of the `for _, vm, vmx in s.get_objects_dex()` loop
(lines 248-371): run the method loop (with `first_iteration` reset to true,
line 284), then the relabeling block, then write the terminator chunk.
`false` means an exception (assert or `ValueError`) aborted the run. -/
def processDex (flt : Option (String → Bool)) (cgNodes : List (String × Bool))
    (d : Dex) (st : PmState) (g : CGraph) :
    List Chunk × PmState × CGraph × Bool :=
  if (processMethods flt d st true).2.2 then
    match relabelStep cgNodes (processMethods flt d st true).2.1.names g with
    | some (names2, g2, s, t) =>
      ((processMethods flt d st true).1 ++ [Chunk.closeCg s t names2],
        ⟨(processMethods flt d st true).2.1.dict, names2⟩, g2, true)
    | none =>
      ((processMethods flt d st true).1, (processMethods flt d st true).2.1, g, false)
  else ((processMethods flt d st true).1, (processMethods flt d st true).2.1, g, false)

/-- The whole DEX loop; aborts propagate (an exception stops all writes). -/
def runGo (flt : Option (String → Bool)) (cgNodes : List (String × Bool)) :
    List Dex → PmState → CGraph → List Chunk × PmState × CGraph × Bool
  | [], st, g => ([], st, g, true)
  | d :: ds, st, g =>
    if (processDex flt cgNodes d st g).2.2.2 then
      ((processDex flt cgNodes d st g).1 ++
          (runGo flt cgNodes ds (processDex flt cgNodes d st g).2.1
            (processDex flt cgNodes d st g).2.2.1).1,
        (runGo flt cgNodes ds (processDex flt cgNodes d st g).2.1
          (processDex flt cgNodes d st g).2.2.1).2)
    else processDex flt cgNodes d st g

/-- Observable outcome of one export run over `data.json`: the chunks written
to the file, the final `method_names`, the final call-graph value, and
whether the run completed without raising. -/
structure RunOut where
  chunks : List Chunk
  names : List String
  graph : CGraph
  ok : Bool
deriving DecidableEq

/-- The `data.json` production of `export_apps_to_format` (lines 244-371).
`cgNodes` are the parallel `(label, is_external)` tables returned by
`dx.get_modified_call_graph`, indexed consistently with the graph's node
iteration order; `cgEdges` is its edge list over those indices. -/
def runExport (flt : Option (String → Bool)) (dexes : List Dex)
    (cgNodes : List (String × Bool)) (cgEdges : List (Nat × Nat)) : RunOut :=
  ⟨Chunk.openList ::
      (runGo flt cgNodes dexes ⟨[], []⟩ ⟨List.range cgNodes.length, cgEdges⟩).1,
    (runGo flt cgNodes dexes ⟨[], []⟩ ⟨List.range cgNodes.length, cgEdges⟩).2.1.names,
    (runGo flt cgNodes dexes ⟨[], []⟩ ⟨List.range cgNodes.length, cgEdges⟩).2.2.1,
    (runGo flt cgNodes dexes ⟨[], []⟩ ⟨List.range cgNodes.length, cgEdges⟩).2.2.2⟩

/-- Split a character list at its last `'.'` into (before, after); `none`
when there is no dot (where Python's `rsplit(".", 1)[1]` raises). -/
def splitLastDot : List Char → Option (List Char × List Char)
  | [] => none
  | c :: cs =>
    match splitLastDot cs with
    | some r => some (c :: r.1, r.2)
    | none => if c = '.' then some ([], cs) else none

/-- The format-key computation shared by lines 121-123 and 228-230:
`writer = output.rsplit(".", 1)[1]`, and when that is `bz2`/`gz`,
`writer = output.rsplit(".", 2)[1]` (which is the last extension again when
the name has a single dot). -/
def writerKey (s : List Char) : Option (List Char) :=
  match splitLastDot s with
  | none => none
  | some (pre, ext) =>
    if ext = ['b', 'z', '2'] ∨ ext = ['g', 'z'] then
      match splitLastDot pre with
      | some r => some r.2
      | none => some ext
    else some ext

/-- The `write_methods` keys of `androcg_main` (lines 110-116). -/
def androcgWriters : List (List Char) :=
  [['g', 'm', 'l'], ['g', 'e', 'x', 'f'], ['g', 'p', 'i', 'c', 'k', 'l', 'e'],
   ['g', 'r', 'a', 'p', 'h', 'm', 'l'], ['y', 'a', 'm', 'l'], ['n', 'e', 't']]

/-- The `write_methods` keys of `export_apps_to_format` (lines 220-226;
`gpickle` and `yaml` are commented out there). -/
def exportWriters : List (List Char) :=
  [['g', 'm', 'l'], ['g', 'e', 'x', 'f'],
   ['g', 'r', 'a', 'p', 'h', 'm', 'l'], ['n', 'e', 't']]

/-- What the call-graph-only export branch does with the output name. -/
inductive CgAction where
  | exitOne : CgAction
  | written : List Char → List Char → CgAction
deriving DecidableEq

/-- Lines 121-129 of `androcg_main` (the non-`show` branch): compute the
format key from the output filename; unknown key prints and `sys.exit(1)`
with nothing written; otherwise the matching writer receives the file.
`none` models the uncaught `IndexError` on a dot-free filename. -/
def androcgWriteStep (output : List Char) : Option CgAction :=
  match writerKey output with
  | none => none
  | some w =>
    if w ∈ androcgWriters then some (CgAction.written w output)
    else some CgAction.exitOne

/-- Outcome of the orchestrator from the call-graph write onward.
`badFormat` is the `sys.exit(1)` of line 233: it precedes the call-graph
write (line 234) and the whole CFG phase (lines 244-371), so nothing is
written at all; `ran` carries the format key of the written call-graph file
and the `data.json` run. `keyError` is the dot-free-path crash. -/
inductive ExportOutcome where
  | keyError : ExportOutcome
  | badFormat : ExportOutcome
  | ran : List Char → RunOut → ExportOutcome
deriving DecidableEq

/-- Lines 228 onward of `export_apps_to_format`, parameterized by the
call-graph output path whose extension is inspected. -/
def exportFromCgPath (cgPath : List Char) (flt : Option (String → Bool))
    (dexes : List Dex) (cgNodes : List (String × Bool))
    (cgEdges : List (Nat × Nat)) : ExportOutcome :=
  match writerKey cgPath with
  | none => ExportOutcome.keyError
  | some w =>
    if w ∈ exportWriters then
      ExportOutcome.ran w (runExport flt dexes cgNodes cgEdges)
    else ExportOutcome.badFormat

/-- The suffix `os.path.join` adds for `"callgraph.gml"` (line 198), as appended
characters. -/
def cgFileSuffix : List Char :=
  ['/', 'c', 'a', 'l', 'l', 'g', 'r', 'a', 'p', 'h', '.', 'g', 'm', 'l']

/-- Model of `export_apps_to_format`: the call-graph path is fixed to
`callgraph.gml` inside the output directory (line 198); the `form` argument
is accepted (line 174) but only read inside commented-out code, so it is
carried and ignored. -/
def export_apps_to_format (output : List Char) (flt : Option (String → Bool))
    (form : Option String) (dexes : List Dex) (cgNodes : List (String × Bool))
    (cgEdges : List (Nat × Nat)) : ExportOutcome :=
  exportFromCgPath (output ++ cgFileSuffix) flt dexes cgNodes cgEdges

/-- Chunk-level well-formedness of the entry stream after the opening `[`:
optionally a first entry, then (separator, entry) pairs, then exactly one
terminator as the very last chunk. The boolean tracks whether an entry has
been emitted (the negation of `first_iteration`). -/
def checkBody : List Chunk → Bool → Bool
  | [Chunk.closeCg _ _ _], _ => true
  | Chunk.entry _ :: rest, false => checkBody rest true
  | Chunk.sep :: Chunk.entry _ :: rest, true => checkBody rest true
  | _, _ => false

/-- A chunk stream renders to one syntactically well-formed JSON document
iff it is the opening chunk, a correctly comma-separated entry list, and a
single trailing terminator (each `entry` chunk is a `json.dumps` output and
the terminator closes every bracket it opens, so chunk-level shape is
exactly string-level validity). -/
def wellFormedDoc : List Chunk → Bool
  | Chunk.openList :: rest => checkBody rest false
  | _ => false

/-- Is this chunk the document terminator? -/
def isClose : Chunk → Bool
  | Chunk.closeCg _ _ _ => true
  | _ => false

/-- The `acfg_list` entries of a chunk stream. -/
def entriesOf (cs : List Chunk) : List AcfgEntry :=
  cs.filterMap (fun c =>
    match c with
    | Chunk.entry e => some e
    | _ => none)

/-- The terminators of a chunk stream with their `cg_edges` source list,
target list, and `method_names` payloads. -/
def closersOf (cs : List Chunk) : List (List Nat × List Nat × List String) :=
  cs.filterMap (fun c =>
    match c with
    | Chunk.closeCg s t n => some (s, t, n)
    | _ => none)

/-- Python `str` / `json.dumps` of an integer list: `[0, 1]`. -/
def natListStr (l : List Nat) : String :=
  "[" ++ String.intercalate ", " (l.map toString) ++ "]"

/-- Python `json.dumps` of a feature vector. -/
def intListStr (l : List Int) : String :=
  "[" ++ String.intercalate ", " (l.map toString) ++ "]"

/-- Python `json.dumps` string escaping (backslash and quote; the payloads here are
method signatures without control characters). -/
def jsonEscape (s : String) : String :=
  String.join (s.toList.map (fun c =>
    if c = '\\' then "\\\\"
    else if c = '"' then "\\\""
    else String.singleton c))

/-- Python `json.dumps` of one string. -/
def jsonString (s : String) : String := "\"" ++ jsonEscape s ++ "\""

/-- Python `json.dumps` of a string list. -/
def jsonStringList (l : List String) : String :=
  "[" ++ String.intercalate ", " (l.map jsonString) ++ "]"

/-- Python `json.dumps` of the `features` dict: Python int keys become strings. -/
def featuresStr (fs : List (Nat × Feature)) : String :=
  "\x7b" ++
    String.intercalate ", "
      (fs.map (fun p => jsonString (toString p.1) ++ ": " ++ intListStr p.2)) ++
  "\x7d"

/-- The exact bytes each chunk contributes to `data.json`. -/
def renderChunk : Chunk → String
  | Chunk.openList => "\x7b\"acfg_list\": ["
  | Chunk.sep => ",\n"
  | Chunk.entry e =>
    "\x7b\"edges\": [" ++ natListStr e.edgesSrc ++ ", " ++ natListStr e.edgesDst ++
      "], \"features\": " ++ featuresStr e.features ++ "\x7d"
  | Chunk.closeCg s t names =>
    "],\n \"cg_edges\": [" ++ natListStr s ++ "," ++ natListStr t ++ "],\n" ++
      "\"method_names\": " ++ jsonStringList names ++ "\x7d"

/-- The file contents of a chunk stream. -/
def renderChunks (cs : List Chunk) : String := String.join (cs.map renderChunk)

/-- The signatures of the methods a run registers as local, in processing
order (filter pass and nonzero instruction count, lines 287-310). -/
def localSigs (flt : Option (String → Bool)) (d : Dex) : List String :=
  (d.filter (qualifiesB flt)).map (fun m => m.sig)

/-- The labels of the external call-graph nodes in table (= walk) order. -/
def extLabels (cgNodes : List (String × Bool)) : List String :=
  (cgNodes.filter (fun p => p.2)).map (fun p => p.1)

/-- The list `[s, s+1, ..., s+n-1]`. -/
def natRangeFrom (s : Nat) : Nat → List Nat
  | 0 => []
  | n + 1 => s :: natRangeFrom (s + 1) n

end AndroExport

namespace AndroExport

/-! ### Basic facts about the list helpers -/

theorem mem_dedupFirstAux {α : Type} [DecidableEq α] {x : α} :
    ∀ {l seen : List α}, x ∈ dedupFirstAux l seen → x ∈ l := by
  intro l
  induction l with
  | nil => intro seen h; simp [dedupFirstAux] at h
  | cons a as ih =>
    intro seen h
    by_cases ha : a ∈ seen
    · simp only [dedupFirstAux, if_pos ha] at h
      exact List.mem_cons_of_mem _ (ih h)
    · simp only [dedupFirstAux, if_neg ha, List.mem_cons] at h
      rcases h with h | h
      · exact h ▸ List.mem_cons_self _ _
      · exact List.mem_cons_of_mem _ (ih h)

theorem dedupFirstAux_eq_self {α : Type} [DecidableEq α] :
    ∀ {l seen : List α}, l.Nodup → (∀ a ∈ l, a ∉ seen) → dedupFirstAux l seen = l := by
  intro l
  induction l with
  | nil => intro seen _ _; rfl
  | cons a as ih =>
    intro seen hnd hdis
    have ha : a ∉ seen := hdis a (List.mem_cons_self _ _)
    simp only [dedupFirstAux, if_neg ha]
    refine congrArg (a :: ·) (ih hnd.of_cons ?_)
    intro b hb
    simp only [List.mem_cons, not_or]
    exact ⟨fun hba => (List.nodup_cons.mp hnd).1 (hba ▸ hb),
      hdis b (List.mem_cons_of_mem _ hb)⟩

theorem dedupFirst_eq_self {α : Type} [DecidableEq α] {l : List α}
    (h : l.Nodup) : dedupFirst l = l :=
  dedupFirstAux_eq_self h (by intro a _; exact List.not_mem_nil a)

theorem posIn_lt {xs : List Nat} {a : Nat} (h : a ∈ xs) : posIn xs a < xs.length := by
  induction xs with
  | nil => cases h
  | cons x xs ih =>
    by_cases hx : x = a
    · simp [posIn, hx]
    · rcases List.mem_cons.mp h with h' | h'
      · exact absurd h'.symm hx
      · simpa [posIn, hx] using ih h'

theorem posIn_inj {xs : List Nat} {a b : Nat} (ha : a ∈ xs) (hb : b ∈ xs)
    (h : posIn xs a = posIn xs b) : a = b := by
  induction xs with
  | nil => cases ha
  | cons x xs ih =>
    by_cases hxa : x = a <;> by_cases hxb : x = b
    · exact hxa ▸ hxb
    · rw [show posIn (x :: xs) a = 0 from by simp [posIn, hxa],
        show posIn (x :: xs) b = posIn xs b + 1 from by simp [posIn, hxb]] at h
      omega
    · rw [show posIn (x :: xs) a = posIn xs a + 1 from by simp [posIn, hxa],
        show posIn (x :: xs) b = 0 from by simp [posIn, hxb]] at h
      omega
    · simp only [posIn, if_neg hxa, if_neg hxb, Nat.add_right_cancel_iff] at h
      rcases List.mem_cons.mp ha with h' | h'
      · exact absurd h'.symm hxa
      · rcases List.mem_cons.mp hb with h'' | h''
        · exact absurd h''.symm hxb
        · exact ih h' h'' h

theorem posIn_map_succ {l : List Nat} {w : Nat} :
    posIn (l.map Nat.succ) (Nat.succ w) = posIn l w := by
  induction l with
  | nil => rfl
  | cons x xs ih =>
    by_cases hx : x = w
    · simp [posIn, hx]
    · have : ¬ Nat.succ x = Nat.succ w := fun h => hx (Nat.succ.inj h)
      simp [posIn, hx, this, ih]

theorem posIn_range {n v : Nat} (h : v < n) : posIn (List.range n) v = v := by
  induction n generalizing v with
  | zero => cases h
  | succ n ih =>
    rw [List.range_succ_eq_map]
    cases v with
    | zero => simp [posIn]
    | succ w =>
      have hw : w < n := Nat.lt_of_succ_lt_succ h
      have : ¬ (0 : Nat) = Nat.succ w := by omega
      simp only [posIn, if_neg this, posIn_map_succ, ih hw]

theorem posIn_self_map {xs : List Nat} (h : xs.Nodup) :
    xs.map (posIn xs) = List.range xs.length := by
  induction xs with
  | nil => rfl
  | cons x xs ih =>
    have hx : ∀ y ∈ xs, posIn (x :: xs) y = posIn xs y + 1 := by
      intro y hy
      have : x ≠ y := fun hxy => (List.nodup_cons.mp h).1 (hxy ▸ hy)
      simp [posIn, this]
    calc (x :: xs).map (posIn (x :: xs))
        = posIn (x :: xs) x :: xs.map (posIn (x :: xs)) := by simp
      _ = 0 :: xs.map (fun y => posIn xs y + 1) := by
          rw [List.map_congr_left hx]; simp [posIn]
      _ = 0 :: (xs.map (posIn xs)).map Nat.succ := by simp [List.map_map]
      _ = 0 :: (List.range xs.length).map Nat.succ := by rw [ih h.of_cons]
      _ = List.range (x :: xs).length := by
          rw [← List.range_succ_eq_map]; rfl

theorem firstIdx_lt {xs : List String} {a : String} {j : Nat}
    (h : firstIdx xs a = some j) : j < xs.length := by
  induction xs generalizing j with
  | nil => cases h
  | cons x xs ih =>
    by_cases hx : x = a
    · simp only [firstIdx, if_pos hx, Option.some.injEq] at h
      simp [← h]
    · simp only [firstIdx, if_neg hx, Option.map_eq_some'] at h
      rcases h with ⟨k, hk, hj⟩
      have := ih hk
      simp only [List.length_cons]
      omega

end AndroExport

namespace AndroExport

/-! ### The relabeling loop -/

theorem relabelLoopGo_cons_true {lbl : String} {rest : List (String × Bool)}
    {i counter : Nat} {names names2 : List String} {ren : List (Nat × Nat)}
    (h : relabelLoopGo ((lbl, true) :: rest) i counter names = some (ren, names2)) :
    ∃ ren', relabelLoopGo rest (i + 1) (counter + 1) (names ++ [lbl]) =
        some (ren', names2) ∧ ren = (i, counter) :: ren' := by
  rw [show relabelLoopGo ((lbl, true) :: rest) i counter names =
      (relabelLoopGo rest (i + 1) (counter + 1) (names ++ [lbl])).map
        (fun r => ((i, counter) :: r.1, r.2)) from rfl] at h
  rcases hrec : relabelLoopGo rest (i + 1) (counter + 1) (names ++ [lbl]) with _ | ⟨ren', nm⟩ <;>
    rw [hrec] at h
  · cases h
  · simp only [Option.map_some', Option.some.injEq, Prod.mk.injEq] at h
    exact ⟨ren', by rw [h.2], h.1.symm⟩

theorem relabelLoopGo_cons_false {lbl : String} {rest : List (String × Bool)}
    {i counter : Nat} {names names2 : List String} {ren : List (Nat × Nat)}
    (h : relabelLoopGo ((lbl, false) :: rest) i counter names = some (ren, names2)) :
    ∃ j ren', firstIdx names lbl = some j ∧
      relabelLoopGo rest (i + 1) counter names = some (ren', names2) ∧
      ren = (i, j) :: ren' := by
  rw [show relabelLoopGo ((lbl, false) :: rest) i counter names =
      (match firstIdx names lbl with
       | some j =>
         (relabelLoopGo rest (i + 1) counter names).map
           (fun r => ((i, j) :: r.1, r.2))
       | none => none) from rfl] at h
  rcases hidx : firstIdx names lbl with _ | j <;> rw [hidx] at h
  · cases h
  · rcases hrec : relabelLoopGo rest (i + 1) counter names with _ | ⟨ren', nm⟩ <;>
      rw [hrec] at h
    · cases h
    · simp only [Option.map_some', Option.some.injEq, Prod.mk.injEq] at h
      exact ⟨j, ren', rfl, by rw [h.2], h.1.symm⟩


/-- A successful relabeling walk appends exactly the external labels, in
walk order, to `method_names`. -/
theorem relabelLoopGo_names {cgNodes : List (String × Bool)} :
    ∀ {i counter : Nat} {names names2 : List String} {ren : List (Nat × Nat)},
      relabelLoopGo cgNodes i counter names = some (ren, names2) →
      names2 = names ++ extLabels cgNodes := by
  induction cgNodes with
  | nil =>
    intro i counter names names2 ren h
    simp only [relabelLoopGo, Option.some.injEq, Prod.mk.injEq] at h
    simp [extLabels, ← h.2]
  | cons p rest ih =>
    intro i counter names names2 ren h
    rcases p with ⟨lbl, isExt⟩
    cases isExt with
    | true =>
      rcases relabelLoopGo_cons_true h with ⟨ren', hrec, _⟩
      rw [ih hrec, show extLabels ((lbl, true) :: rest) = lbl :: extLabels rest
        from by simp [extLabels, List.filter]]
      simp
    | false =>
      rcases relabelLoopGo_cons_false h with ⟨j, ren', _, hrec, _⟩
      rw [ih hrec, show extLabels ((lbl, false) :: rest) = extLabels rest
        from by simp [extLabels, List.filter]]

/-- Along a successful walk started with `counter = len(method_names)`, the
`rename_nodes` dict covers every node index of the walked range, and every
assigned id is a valid index into the final name table. -/
theorem relabelLoopGo_lookup {cgNodes : List (String × Bool)} :
    ∀ {i : Nat} {names names2 : List String} {ren : List (Nat × Nat)},
      relabelLoopGo cgNodes i names.length names = some (ren, names2) →
      ∀ v, i ≤ v → v < i + cgNodes.length →
        ∃ w, ren.lookup v = some w ∧ w < names2.length := by
  induction cgNodes with
  | nil =>
    intro i names names2 ren _ v hle hlt
    simp at hlt
    omega
  | cons p rest ih =>
    intro i names names2 ren h v hle hlt
    rcases p with ⟨lbl, isExt⟩
    cases isExt with
    | true =>
      rcases relabelLoopGo_cons_true h with ⟨ren', hrec, hout⟩
      have hlen : names.length + 1 = (names ++ [lbl]).length := by simp
      rw [hlen] at hrec
      have hgrow : names2 = (names ++ [lbl]) ++ extLabels rest :=
        relabelLoopGo_names hrec
      by_cases hv : v = i
      · refine ⟨names.length, ?_, ?_⟩
        · rw [hout]; simp [List.lookup, hv]
        · rw [hgrow]; simp
      · have hvi : i + 1 ≤ v := by omega
        rcases ih hrec v hvi (by simp at hlt ⊢; omega) with ⟨w, hw, hwlt⟩
        refine ⟨w, ?_, hwlt⟩
        rw [hout]
        simp only [List.lookup, beq_eq_false_iff_ne.mpr hv]
        exact hw
    | false =>
      rcases relabelLoopGo_cons_false h with ⟨j, ren', hidx, hrec, hout⟩
      have hgrow : names2 = names ++ extLabels rest := relabelLoopGo_names hrec
      by_cases hv : v = i
      · refine ⟨j, ?_, ?_⟩
        · rw [hout]; simp [List.lookup, hv]
        · rw [hgrow]
          have := firstIdx_lt hidx
          simp only [List.length_append]
          omega
      · have hvi : i + 1 ≤ v := by omega
        rcases ih hrec v hvi (by simp at hlt ⊢; omega) with ⟨w, hw, hwlt⟩
        refine ⟨w, ?_, hwlt⟩
        rw [hout]
        simp only [List.lookup, beq_eq_false_iff_ne.mpr hv]
        exact hw

/-- The external nodes receive exactly the ids `counter, counter+1, …`, in
walk order: zipping the node table against `rename_nodes` and keeping the
external rows reads back a contiguous id range. -/
theorem relabelLoopGo_extIds {cgNodes : List (String × Bool)} :
    ∀ {i counter : Nat} {names names2 : List String} {ren : List (Nat × Nat)},
      relabelLoopGo cgNodes i counter names = some (ren, names2) →
      ((cgNodes.zip ren).filter (fun q => q.1.2)).map (fun q => q.2.2) =
        natRangeFrom counter (extLabels cgNodes).length := by
  induction cgNodes with
  | nil =>
    intro i counter names names2 ren h
    simp only [relabelLoopGo, Option.some.injEq, Prod.mk.injEq] at h
    simp [← h.1, extLabels, natRangeFrom]
  | cons p rest ih =>
    intro i counter names names2 ren h
    rcases p with ⟨lbl, isExt⟩
    cases isExt with
    | true =>
      rcases relabelLoopGo_cons_true h with ⟨ren', hrec, hout⟩
      rw [hout, show extLabels ((lbl, true) :: rest) = lbl :: extLabels rest
        from by simp [extLabels, List.filter]]
      simp only [List.zip_cons_cons, List.filter, List.map, List.length_cons]
      rw [show natRangeFrom counter ((extLabels rest).length + 1) =
        counter :: natRangeFrom (counter + 1) (extLabels rest).length from rfl]
      exact congrArg (counter :: ·) (ih hrec)
    | false =>
      rcases relabelLoopGo_cons_false h with ⟨j, ren', _, hrec, hout⟩
      rw [hout, show extLabels ((lbl, false) :: rest) = extLabels rest
        from by simp [extLabels, List.filter]]
      simp only [List.zip_cons_cons, List.filter]
      exact ih hrec

/-- When every node of the table is external, the walk always succeeds, the
table grows by all labels, and (starting the counter at the start index) the
rename map is the identity. -/
theorem relabelLoopGo_allExt {cgNodes : List (String × Bool)}
    (hext : ∀ p ∈ cgNodes, p.2 = true) :
    ∀ (i : Nat) (names : List String),
      ∃ ren, relabelLoopGo cgNodes i i names =
          some (ren, names ++ cgNodes.map Prod.fst) ∧
        ∀ p ∈ ren, p.1 = p.2 := by
  induction cgNodes with
  | nil => intro i names; exact ⟨[], by simp [relabelLoopGo], by simp⟩
  | cons p rest ih =>
    intro i names
    rcases p with ⟨lbl, isExt⟩
    have hl : isExt = true := hext (lbl, isExt) (List.mem_cons_self _ _)
    subst hl
    have hrest : ∀ p ∈ rest, p.2 = true := fun q hq =>
      hext q (List.mem_cons_of_mem _ hq)
    rcases ih hrest (i + 1) (names ++ [lbl]) with ⟨ren', hrec, hid⟩
    refine ⟨(i, i) :: ren', ?_, ?_⟩
    · rw [show relabelLoopGo ((lbl, true) :: rest) i i names =
        (relabelLoopGo rest (i + 1) (i + 1) (names ++ [lbl])).map
          (fun r => ((i, i) :: r.1, r.2)) from rfl, hrec]
      simp
    · intro q hq
      rcases List.mem_cons.mp hq with hq | hq
      · rw [hq]
      · exact hid q hq

/-- An all-identity rename map acts as the identity. -/
theorem applyRename_id {ren : List (Nat × Nat)} (h : ∀ p ∈ ren, p.1 = p.2)
    (v : Nat) : applyRename ren v = v := by
  induction ren with
  | nil => rfl
  | cons q qs ih =>
    rcases q with ⟨a, b⟩
    have hab : a = b := h (a, b) (List.mem_cons_self _ _)
    by_cases hv : v = a
    · simp [applyRename, List.lookup, hv, hab]
    · have hbeq : (v == a) = false := beq_eq_false_iff_ne.mpr hv
      have htail := ih (fun q hq => h q (List.mem_cons_of_mem _ hq))
      simp only [applyRename, List.lookup, hbeq] at htail ⊢
      exact htail

end AndroExport

namespace AndroExport

/-! ### The per-DEX method loop -/

theorem processMethods_cons_qv {flt : Option (String → Bool)} {m : Method}
    {rest : List Method} {st : PmState} {first : Bool}
    (hq : qualifiesB flt m = true) (hv : validCfgB m = true) :
    processMethods flt (m :: rest) st first =
      ((if first then [Chunk.entry (mkEntry m.cfg)]
        else [Chunk.sep, Chunk.entry (mkEntry m.cfg)]) ++
          (processMethods flt rest
            ⟨dictInsert st.dict m.sig st.dict.length, st.names ++ [m.sig]⟩ false).1,
        (processMethods flt rest
          ⟨dictInsert st.dict m.sig st.dict.length, st.names ++ [m.sig]⟩ false).2) := by
  simp only [processMethods, hq, hv, if_true]

theorem processMethods_cons_qnv {flt : Option (String → Bool)} {m : Method}
    {rest : List Method} {st : PmState} {first : Bool}
    (hq : qualifiesB flt m = true) (hv : validCfgB m = false) :
    processMethods flt (m :: rest) st first =
      ([], ⟨dictInsert st.dict m.sig st.dict.length, st.names ++ [m.sig]⟩, false) := by
  simp only [processMethods, hq, hv, if_true, Bool.false_eq_true, if_false]

theorem processMethods_cons_nq {flt : Option (String → Bool)} {m : Method}
    {rest : List Method} {st : PmState} {first : Bool}
    (hq : qualifiesB flt m = false) :
    processMethods flt (m :: rest) st first = processMethods flt rest st first := by
  simp only [processMethods, hq, Bool.false_eq_true, if_false]

/-- The streamed `acfg_list` entries are exactly the qualifying methods up to
the first one failing the line-319 assert, in processing order. -/
theorem processMethods_entries {flt : Option (String → Bool)} :
    ∀ (ms : List Method) (st : PmState) (first : Bool),
      entriesOf (processMethods flt ms st first).1 =
        ((ms.filter (qualifiesB flt)).takeWhile validCfgB).map
          (fun m => mkEntry m.cfg) := by
  intro ms
  induction ms with
  | nil => intro st first; simp [processMethods, entriesOf]
  | cons m rest ih =>
    intro st first
    by_cases hq : qualifiesB flt m = true
    · by_cases hv : validCfgB m = true
      · rw [processMethods_cons_qv hq hv]
        simp only [entriesOf, List.filterMap_append]
        rw [show (List.filterMap (fun c =>
            match c with
            | Chunk.entry e => some e
            | _ => none)
            (if first then [Chunk.entry (mkEntry m.cfg)]
             else [Chunk.sep, Chunk.entry (mkEntry m.cfg)])) = [mkEntry m.cfg]
          from by cases first <;> simp]
        rw [List.filter_cons_of_pos hq, List.takeWhile_cons_of_pos hv]
        simpa [entriesOf] using ih _ false
      · rw [processMethods_cons_qnv hq (Bool.not_eq_true _ ▸ hv)]
        rw [List.filter_cons_of_pos hq,
          List.takeWhile_cons_of_neg (by simpa using hv)]
        simp [entriesOf]
    · rw [processMethods_cons_nq (Bool.not_eq_true _ ▸ hq),
        List.filter_cons_of_neg (by simpa using hq)]
      exact ih st first

/-- The loop reports success iff every qualifying method passes the assert. -/
theorem processMethods_ok {flt : Option (String → Bool)} :
    ∀ (ms : List Method) (st : PmState) (first : Bool),
      (processMethods flt ms st first).2.2 =
        (ms.filter (qualifiesB flt)).all validCfgB := by
  intro ms
  induction ms with
  | nil => intro st first; simp [processMethods]
  | cons m rest ih =>
    intro st first
    by_cases hq : qualifiesB flt m = true
    · by_cases hv : validCfgB m = true
      · rw [processMethods_cons_qv hq hv, List.filter_cons_of_pos hq]
        simp only [List.all_cons, hv, Bool.true_and]
        exact ih _ false
      · rw [processMethods_cons_qnv hq (Bool.not_eq_true _ ▸ hv),
          List.filter_cons_of_pos hq]
        simp only [List.all_cons, (Bool.not_eq_true _ ▸ hv : validCfgB m = false),
          Bool.false_and]
    · rw [processMethods_cons_nq (Bool.not_eq_true _ ▸ hq),
        List.filter_cons_of_neg (by simpa using hq)]
      exact ih st first

/-- On success the loop has appended exactly the qualifying signatures to
`method_names`, in processing order. -/
theorem processMethods_names {flt : Option (String → Bool)} :
    ∀ (ms : List Method) (st : PmState) (first : Bool),
      (processMethods flt ms st first).2.2 = true →
      (processMethods flt ms st first).2.1.names = st.names ++ localSigs flt ms := by
  intro ms
  induction ms with
  | nil => intro st first _; simp [processMethods, localSigs]
  | cons m rest ih =>
    intro st first hok
    by_cases hq : qualifiesB flt m = true
    · by_cases hv : validCfgB m = true
      · rw [processMethods_cons_qv hq hv] at hok ⊢
        simp only at hok ⊢
        rw [ih _ false hok]
        simp only [localSigs, List.filter_cons_of_pos hq, List.map_cons]
        simp
      · rw [processMethods_cons_qnv hq (Bool.not_eq_true _ ▸ hv)] at hok
        cases hok
    · rw [processMethods_cons_nq (Bool.not_eq_true _ ▸ hq)] at hok ⊢
      rw [ih st first hok]
      simp only [localSigs, List.filter_cons_of_neg (by simpa using hq)]

/-- A run whose filter excludes every method leaves the state untouched and
writes nothing. -/
theorem processMethods_noQualifier {flt : Option (String → Bool)} :
    ∀ (ms : List Method) (st : PmState) (first : Bool),
      ms.filter (qualifiesB flt) = [] →
      processMethods flt ms st first = ([], st, true) := by
  intro ms
  induction ms with
  | nil => intro st first _; rfl
  | cons m rest ih =>
    intro st first hf
    by_cases hq : qualifiesB flt m = true
    · rw [List.filter_cons_of_pos hq] at hf
      cases hf
    · rw [List.filter_cons_of_neg (by simpa using hq)] at hf
      rw [processMethods_cons_nq (Bool.not_eq_true _ ▸ hq)]
      exact ih st first hf

/-- The method loop never writes a terminator chunk. -/
theorem processMethods_countClose {flt : Option (String → Bool)} :
    ∀ (ms : List Method) (st : PmState) (first : Bool),
      (processMethods flt ms st first).1.countP isClose = 0 := by
  intro ms
  induction ms with
  | nil => intro st first; simp [processMethods]
  | cons m rest ih =>
    intro st first
    by_cases hq : qualifiesB flt m = true
    · by_cases hv : validCfgB m = true
      · rw [processMethods_cons_qv hq hv]
        simp only [List.countP_append]
        rw [show (List.countP isClose
            (if first then [Chunk.entry (mkEntry m.cfg)]
             else [Chunk.sep, Chunk.entry (mkEntry m.cfg)])) = 0
          from by cases first <;> simp [isClose]]
        simpa using ih _ false
      · rw [processMethods_cons_qnv hq (Bool.not_eq_true _ ▸ hv)]
        simp
    · rw [processMethods_cons_nq (Bool.not_eq_true _ ▸ hq)]
      exact ih st first

/-- The method loop contributes no terminator payloads. -/
theorem processMethods_closersOf {flt : Option (String → Bool)} :
    ∀ (ms : List Method) (st : PmState) (first : Bool),
      closersOf (processMethods flt ms st first).1 = [] := by
  intro ms
  induction ms with
  | nil => intro st first; simp [processMethods, closersOf]
  | cons m rest ih =>
    intro st first
    by_cases hq : qualifiesB flt m = true
    · by_cases hv : validCfgB m = true
      · rw [processMethods_cons_qv hq hv]
        simp only [closersOf, List.filterMap_append]
        rw [show (List.filterMap (fun c =>
            match c with
            | Chunk.closeCg s t n => some (s, t, n)
            | _ => none)
            (if first then [Chunk.entry (mkEntry m.cfg)]
             else [Chunk.sep, Chunk.entry (mkEntry m.cfg)])) = [] from
          by cases first <;> simp]
        simpa [closersOf] using ih _ false
      · rw [processMethods_cons_qnv hq (Bool.not_eq_true _ ▸ hv)]
        simp [closersOf]
    · rw [processMethods_cons_nq (Bool.not_eq_true _ ▸ hq)]
      exact ih st first

end AndroExport

namespace AndroExport

/-! ### Writer shape and run structure -/

/-- Whatever the method loop streamed, following it with a single terminator
yields a well-formed entry body. -/
theorem checkBody_close {flt : Option (String → Bool)} :
    ∀ (ms : List Method) (st : PmState) (first : Bool) (s t : List Nat)
      (n : List String),
      checkBody ((processMethods flt ms st first).1 ++ [Chunk.closeCg s t n])
        (!first) = true := by
  intro ms
  induction ms with
  | nil => intro st first s t n; rfl
  | cons m rest ih =>
    intro st first s t n
    by_cases hq : qualifiesB flt m = true
    · by_cases hv : validCfgB m = true
      · rw [processMethods_cons_qv hq hv]
        cases first
        · simpa using ih _ false s t n
        · simpa using ih _ false s t n
      · rw [processMethods_cons_qnv hq (Bool.not_eq_true _ ▸ hv)]
        rfl
    · rw [processMethods_cons_nq (Bool.not_eq_true _ ▸ hq)]
      exact ih st first s t n

/-- Anything after a terminator chunk ruins well-formedness. -/
theorem checkBody_close_tail {flt : Option (String → Bool)} :
    ∀ (ms : List Method) (st : PmState) (first : Bool) (s t : List Nat)
      (n : List String) (c : Chunk) (tl : List Chunk),
      checkBody ((processMethods flt ms st first).1 ++
        Chunk.closeCg s t n :: c :: tl) (!first) = false := by
  intro ms
  induction ms with
  | nil =>
    intro st first s t n c tl
    cases first <;> rfl
  | cons m rest ih =>
    intro st first s t n c tl
    by_cases hq : qualifiesB flt m = true
    · by_cases hv : validCfgB m = true
      · rw [processMethods_cons_qv hq hv]
        cases first
        · simpa using ih _ false s t n c tl
        · simpa using ih _ false s t n c tl
      · rw [processMethods_cons_qnv hq (Bool.not_eq_true _ ▸ hv)]
        cases first <;> rfl
    · rw [processMethods_cons_nq (Bool.not_eq_true _ ▸ hq)]
      exact ih st first s t n c tl

theorem relabelStep_some {cn : List (String × Bool)} {names names2 : List String}
    {g g2 : CGraph} {s t : List Nat}
    (h : relabelStep cn names g = some (names2, g2, s, t)) :
    ∃ ren, relabelLoopGo cn 0 names.length names = some (ren, names2) ∧
      g2 = relabelGraph (applyRename ren) (convertNodeLabelsToIntegers g) ∧
      s = g2.edges.map Prod.fst ∧ t = g2.edges.map Prod.snd := by
  rcases hloop : relabelLoopGo cn 0 names.length names with _ | ⟨ren, nm⟩
  · rw [relabelStep, hloop] at h
    cases h
  · rw [relabelStep, hloop] at h
    simp only [Option.some.injEq, Prod.mk.injEq] at h
    obtain ⟨h1, h2, h3, h4⟩ := h
    refine ⟨ren, by rw [h1], h2.symm, ?_, ?_⟩
    · rw [← h3, h2]
    · rw [← h4, h2]

theorem processDex_ok_shape {flt : Option (String → Bool)}
    {cn : List (String × Bool)} {d : Dex} {st : PmState} {g : CGraph}
    (h : (processDex flt cn d st g).2.2.2 = true) :
    ∃ s t names2 g2,
      (processMethods flt d st true).2.2 = true ∧
      relabelStep cn (processMethods flt d st true).2.1.names g =
        some (names2, g2, s, t) ∧
      processDex flt cn d st g =
        ((processMethods flt d st true).1 ++ [Chunk.closeCg s t names2],
          ⟨(processMethods flt d st true).2.1.dict, names2⟩, g2, true) := by
  rcases hpm : processMethods flt d st true with ⟨cs, st2, ok⟩
  cases ok with
  | false => rw [processDex, hpm] at h; simp at h
  | true =>
    rcases hrel : relabelStep cn st2.names g with _ | ⟨⟨names2, g2, s, t⟩⟩
    · rw [processDex, hpm] at h
      simp [hrel] at h
    · refine ⟨s, t, names2, g2, rfl, rfl, ?_⟩
      rw [processDex, hpm]
      simp [hrel]

theorem runGo_cons_ok {flt : Option (String → Bool)} {cn : List (String × Bool)}
    {d : Dex} {ds : List Dex} {st : PmState} {g : CGraph}
    (h : (runGo flt cn (d :: ds) st g).2.2.2 = true) :
    (processDex flt cn d st g).2.2.2 = true ∧
    runGo flt cn (d :: ds) st g =
      ((processDex flt cn d st g).1 ++
          (runGo flt cn ds (processDex flt cn d st g).2.1
            (processDex flt cn d st g).2.2.1).1,
        (runGo flt cn ds (processDex flt cn d st g).2.1
          (processDex flt cn d st g).2.2.1).2) ∧
    (runGo flt cn ds (processDex flt cn d st g).2.1
      (processDex flt cn d st g).2.2.1).2.2.2 = true := by
  rcases hpd : processDex flt cn d st g with ⟨cs, st2, g2, ok⟩
  cases ok with
  | false => rw [runGo, hpd] at h; simp at h
  | true =>
    refine ⟨rfl, ?_, ?_⟩
    · rw [runGo, hpd]
      simp
    · rw [runGo, hpd] at h
      simpa using h

/-- A completed run writes exactly one terminator per DEX object. -/
theorem runGo_countClose {flt : Option (String → Bool)}
    {cn : List (String × Bool)} :
    ∀ (ds : List Dex) (st : PmState) (g : CGraph),
      (runGo flt cn ds st g).2.2.2 = true →
      (runGo flt cn ds st g).1.countP isClose = ds.length := by
  intro ds
  induction ds with
  | nil => intro st g _; simp [runGo]
  | cons d ds ih =>
    intro st g h
    rcases runGo_cons_ok h with ⟨hpd, heq, hok2⟩
    rcases processDex_ok_shape hpd with ⟨s, t, names2, g2, _, _, hshape⟩
    rw [heq]
    simp only [List.countP_append]
    rw [show (processDex flt cn d st g).1.countP isClose = 1 from by
      rw [hshape]
      simp only [List.countP_append, processMethods_countClose]
      simp [isClose, List.countP_cons]]
    rw [ih _ _ hok2, List.length_cons]
    omega

end AndroExport

namespace AndroExport

/-- With no DEX objects, the loop body never runs: the file holds just the
opening fragment. -/
theorem runExport_nil {flt : Option (String → Bool)} {cn : List (String × Bool)}
    {ce : List (Nat × Nat)} :
    runExport flt [] cn ce =
      ⟨[Chunk.openList], [], ⟨List.range cn.length, ce⟩, true⟩ := rfl

/-- Decomposition of a completed single-DEX run. -/
theorem runExport_singleDex {flt : Option (String → Bool)} {d : Dex}
    {cn : List (String × Bool)} {ce : List (Nat × Nat)}
    (h : (runExport flt [d] cn ce).ok = true) :
    ∃ s t names2 g2,
      (processMethods flt d ⟨[], []⟩ true).2.2 = true ∧
      relabelStep cn (processMethods flt d ⟨[], []⟩ true).2.1.names
        ⟨List.range cn.length, ce⟩ = some (names2, g2, s, t) ∧
      runExport flt [d] cn ce =
        ⟨Chunk.openList :: ((processMethods flt d ⟨[], []⟩ true).1 ++
          [Chunk.closeCg s t names2]), names2, g2, true⟩ := by
  have hok : (runGo flt cn [d] ⟨[], []⟩ ⟨List.range cn.length, ce⟩).2.2.2 = true := h
  rcases runGo_cons_ok hok with ⟨hpd, heq, _⟩
  rcases processDex_ok_shape hpd with ⟨s, t, names2, g2, hpm, hrel, hshape⟩
  refine ⟨s, t, names2, g2, hpm, hrel, ?_⟩
  show (⟨Chunk.openList ::
      (runGo flt cn [d] ⟨[], []⟩ ⟨List.range cn.length, ce⟩).1,
    (runGo flt cn [d] ⟨[], []⟩ ⟨List.range cn.length, ce⟩).2.1.names,
    (runGo flt cn [d] ⟨[], []⟩ ⟨List.range cn.length, ce⟩).2.2.1,
    (runGo flt cn [d] ⟨[], []⟩ ⟨List.range cn.length, ce⟩).2.2.2⟩ : RunOut) = _
  rw [runGo, hshape]
  simp [runGo]

/-- A run that completes had no assert violation in any DEX. -/
theorem runGo_allValid {flt : Option (String → Bool)}
    {cn : List (String × Bool)} :
    ∀ (ds : List Dex) (st : PmState) (g : CGraph),
      (runGo flt cn ds st g).2.2.2 = true →
      ∀ d ∈ ds, (d.filter (qualifiesB flt)).all validCfgB = true := by
  intro ds
  induction ds with
  | nil => intro st g _ d hd; cases hd
  | cons d0 ds ih =>
    intro st g h d hd
    rcases runGo_cons_ok h with ⟨hpd, _, hok2⟩
    rcases List.mem_cons.mp hd with hd | hd
    · subst hd
      rcases processDex_ok_shape hpd with ⟨s, t, n2, g2, hpm, _, _⟩
      rw [processMethods_ok d st true] at hpm
      exact hpm
    · exact ih _ _ hok2 d hd

/-- Densifying a graph whose nodes are already `0..n-1` changes nothing. -/
theorem convert_range {n : Nat} {ce : List (Nat × Nat)}
    (hend : ∀ e ∈ ce, e.1 < n ∧ e.2 < n) :
    convertNodeLabelsToIntegers ⟨List.range n, ce⟩ = ⟨List.range n, ce⟩ := by
  unfold convertNodeLabelsToIntegers
  simp only [CGraph.mk.injEq, List.length_range, true_and]
  calc ce.map (fun e => (posIn (List.range n) e.1, posIn (List.range n) e.2))
      = ce.map (fun e => e) := by
        refine List.map_congr_left ?_
        intro e he
        rcases hend e he with ⟨h1, h2⟩
        simp [posIn_range h1, posIn_range h2]
    _ = ce := by simp

end AndroExport

namespace AndroExport

/-! ### Format dispatch facts -/

theorem splitLastDot_append_gml (xs : List Char) :
    splitLastDot (xs ++ ['.', 'g', 'm', 'l']) = some (xs, ['g', 'm', 'l']) := by
  induction xs with
  | nil => rfl
  | cons c cs ih =>
    show (match splitLastDot (cs ++ ['.', 'g', 'm', 'l']) with
      | some r => some (c :: r.1, r.2)
      | none => if c = '.' then some ([], cs ++ ['.', 'g', 'm', 'l']) else none) = _
    rw [ih]

/-- The fixed `callgraph.gml` path always resolves to the `gml` format key,
whatever the output directory string is. -/
theorem writerKey_cgPath (output : List Char) :
    writerKey (output ++ cgFileSuffix) = some ['g', 'm', 'l'] := by
  have hsplit : output ++ cgFileSuffix =
      (output ++ ['/', 'c', 'a', 'l', 'l', 'g', 'r', 'a', 'p', 'h']) ++
        ['.', 'g', 'm', 'l'] := by
    simp [cgFileSuffix]
  rw [hsplit]
  unfold writerKey
  rw [splitLastDot_append_gml]
  simp

/-! ### Claim theorems -/

/-- Claim C3 (confirmed): for an application with exactly one local method
`A` whose only call edge targets the single external node `X`, the exported
document has `method_names == ["A", "X"]` and `cg_edges == [[0], [1]]`
(carried by the terminator chunk): `A` is id 0 as first local, `X` is id 1
as first external. -/
theorem c3_single_local_single_external :
    (runExport none [[⟨"A", 1, ⟨[0], [], [(0, [])]⟩⟩]]
      [("A", false), ("X", true)] [(0, 1)]).names = ["A", "X"] ∧
    closersOf (runExport none [[⟨"A", 1, ⟨[0], [], [(0, [])]⟩⟩]]
      [("A", false), ("X", true)] [(0, 1)]).chunks = [([0], [1], ["A", "X"])] ∧
    (runExport none [[⟨"A", 1, ⟨[0], [], [(0, [])]⟩⟩]]
      [("A", false), ("X", true)] [(0, 1)]).ok = true := by
  refine ⟨?_, ?_, ?_⟩ <;> decide

/-- Claim C7 (confirmed): in the call-graph-only path, once the extension
machinery produces a format key (stripping a trailing `gz`/`bz2` first) that
is not one of the supported writers, the branch hits `sys.exit(1)` with no
call-graph file written (the `written` outcome is never produced). -/
theorem c7_unknown_format_exits (output : List Char) (w : List Char)
    (hk : writerKey output = some w) (hw : w ∉ androcgWriters) :
    androcgWriteStep output = some CgAction.exitOne := by
  unfold androcgWriteStep
  rw [hk]
  simp [hw]

theorem c7_unknown_format_exits_witness :
    androcgWriteStep ['o', 'u', 't', '.', 's', 'v', 'g'] =
      some CgAction.exitOne :=
  c7_unknown_format_exits ['o', 'u', 't', '.', 's', 'v', 'g'] ['s', 'v', 'g']
    (by decide) (by decide)

/-- Claim C8 (confirmed): the orchestrator validates the call-graph format
key (computed from the call-graph output path at lines 228-233) before the
call-graph write and before any CFG extraction; an unsupported key ends the
run as `badFormat`: no call-graph file, no `data.json` chunk, no CFG entry.
(In actual runs the path is fixed to `callgraph.gml`, so the key is always
`gml` — see the C10 theorem; this theorem covers the guard itself.) -/
theorem c8_validate_before_extraction (cgPath : List Char)
    (flt : Option (String → Bool)) (dexes : List Dex)
    (cn : List (String × Bool)) (ce : List (Nat × Nat)) (w : List Char)
    (hk : writerKey cgPath = some w) (hw : w ∉ exportWriters) :
    exportFromCgPath cgPath flt dexes cn ce = ExportOutcome.badFormat := by
  unfold exportFromCgPath
  rw [hk]
  simp [hw]

theorem c8_validate_before_extraction_witness :
    exportFromCgPath ['c', 'a', 'l', 'l', 'g', 'r', 'a', 'p', 'h', '.', 's', 'v', 'g']
      none [] [] [] = ExportOutcome.badFormat :=
  c8_validate_before_extraction _ none [] [] [] ['s', 'v', 'g'] (by decide)
    (by decide)

/-- Claim C10 (confirmed): the call-graph file path is fixed to
`callgraph.gml` inside the output directory, so the format key is `gml` for
every output directory string and the dispatch always selects the GML
writer; the `form` argument does not influence the outcome (the equation
holds for every `form`, which appears nowhere on the right-hand side). -/
theorem c10_cg_format_fixed (output : List Char) (flt : Option (String → Bool))
    (form : Option String) (dexes : List Dex) (cn : List (String × Bool))
    (ce : List (Nat × Nat)) :
    writerKey (output ++ cgFileSuffix) = some ['g', 'm', 'l'] ∧
    export_apps_to_format output flt form dexes cn ce =
      ExportOutcome.ran ['g', 'm', 'l'] (runExport flt dexes cn ce) := by
  refine ⟨writerKey_cgPath output, ?_⟩
  unfold export_apps_to_format exportFromCgPath
  rw [writerKey_cgPath output]
  simp [exportWriters]

/-! ### Counterexamples -/

/-- Claim C1 counterexample: a run over two DEX objects (one qualifying
method each, one external node) completes, but the relabeling block runs
once per DEX and re-appends the external label, so the final name table is
`["A", "X", "B", "X"]`: id 1 is owned by the external `X`, not by the second
local method, `X` owns two ids, and the table is not the locals followed by
the externals. -/
theorem c1_cex_two_dex :
    (runExport none
      [[⟨"A", 1, ⟨[0], [], [(0, [])]⟩⟩], [⟨"B", 1, ⟨[0], [], [(0, [])]⟩⟩]]
      [("A", false), ("X", true)] [(0, 1)]).ok = true ∧
    (runExport none
      [[⟨"A", 1, ⟨[0], [], [(0, [])]⟩⟩], [⟨"B", 1, ⟨[0], [], [(0, [])]⟩⟩]]
      [("A", false), ("X", true)] [(0, 1)]).names = ["A", "X", "B", "X"] ∧
    (runExport none
      [[⟨"A", 1, ⟨[0], [], [(0, [])]⟩⟩], [⟨"B", 1, ⟨[0], [], [(0, [])]⟩⟩]]
      [("A", false), ("X", true)] [(0, 1)]).names ≠
      localSigs none
          [⟨"A", 1, ⟨[0], [], [(0, [])]⟩⟩, ⟨"B", 1, ⟨[0], [], [(0, [])]⟩⟩] ++
        extLabels [("A", false), ("X", true)] := by
  refine ⟨?_, ?_, ?_⟩ <;> decide

/-- Claim C2 counterexample: a completed single-DEX run whose one local
method has a CFG on nodes `0..4`; the streamed `acfg_list` entry's edge
lists contain the id 4 while `len(method_names) = 1`, so an id in an edge
list of the document is not `< len(method_names)`. -/
theorem c2_cex_acfg_ids :
    (runExport none
      [[⟨"A", 1, ⟨[0, 1, 2, 3, 4], [(0, 4)],
        [(0, []), (1, []), (2, []), (3, []), (4, [])]⟩⟩]]
      [("A", false)] []).ok = true ∧
    entriesOf (runExport none
      [[⟨"A", 1, ⟨[0, 1, 2, 3, 4], [(0, 4)],
        [(0, []), (1, []), (2, []), (3, []), (4, [])]⟩⟩]]
      [("A", false)] []).chunks =
      [⟨[0], [4], [(0, []), (1, []), (2, []), (3, []), (4, [])]⟩] ∧
    (runExport none
      [[⟨"A", 1, ⟨[0, 1, 2, 3, 4], [(0, 4)],
        [(0, []), (1, []), (2, []), (3, []), (4, [])]⟩⟩]]
      [("A", false)] []).names.length = 1 ∧
    ¬ (4 : Nat) < 1 := by
  refine ⟨?_, ?_, ?_, ?_⟩ <;> decide

/-- Claim C4 counterexample: a node table in which an external node and an
internal node share the label `"X"` (the internal label is not a registered
local). The internal lookup finds the external's fresh table entry, both
nodes map to id 1, and `nx.relabel_nodes` merges them: 3 input nodes and 2
input edges become 2 nodes and 1 edge — the output is not isomorphic to the
input and the edge multiset is not the image of the input's. -/
theorem c4_cex_label_collision :
    relabelStep [("X", true), ("X", false), ("A", false)] ["A"]
        ⟨[0, 1, 2], [(0, 2), (1, 2)]⟩ =
      some (["A", "X"], ⟨[1, 0], [(1, 0)]⟩, [1], [0]) ∧
    (⟨[1, 0], [(1, 0)]⟩ : CGraph).nodes.length ≠
      (⟨[0, 1, 2], [(0, 2), (1, 2)]⟩ : CGraph).nodes.length ∧
    (⟨[1, 0], [(1, 0)]⟩ : CGraph).edges.length ≠
      (⟨[0, 1, 2], [(0, 2), (1, 2)]⟩ : CGraph).edges.length := by
  refine ⟨?_, ?_, ?_⟩ <;> decide

/-- Claim C6 counterexample: one DEX, a filter matching nothing, and a call
graph whose single node is internal (as an entry-point node is). The
relabeling hits `method_names.index` on an empty table, the `ValueError`
aborts the run, and the file holds only the opening fragment — not a valid
JSON document, and no `cg_edges`/`method_names` are written at all. -/
theorem c6_cex_internal_node_aborts :
    (runExport (some (fun _ => false)) [[⟨"A", 1, ⟨[0], [], [(0, [])]⟩⟩]]
      [("A", false)] []).ok = false ∧
    (runExport (some (fun _ => false)) [[⟨"A", 1, ⟨[0], [], [(0, [])]⟩⟩]]
      [("A", false)] []).chunks = [Chunk.openList] ∧
    wellFormedDoc (runExport (some (fun _ => false))
      [[⟨"A", 1, ⟨[0], [], [(0, [])]⟩⟩]] [("A", false)] []).chunks = false := by
  refine ⟨?_, ?_, ?_⟩ <;> decide

end AndroExport

namespace AndroExport

/-- Claim C1 (amended, proved): restricted to a run over exactly one DEX
object that completes, the identifier assignment is as claimed: the final
`method_names` is the qualifying local signatures in processing order
followed by the external labels in walk order (so index = id, ids `[0, L)`
are the locals and `[L, L+E)` the externals, each issued once), and in the
relabeling walk the external nodes receive exactly the ids
`L, L+1, …, L+E-1` in first-encounter order. -/
theorem c1_amended (flt : Option (String → Bool)) (d : Dex)
    (cn : List (String × Bool)) (ce : List (Nat × Nat))
    (hok : (runExport flt [d] cn ce).ok = true) :
    (runExport flt [d] cn ce).names = localSigs flt d ++ extLabels cn ∧
    ∀ (names0 names2 : List String) (ren : List (Nat × Nat)),
      relabelLoopGo cn 0 names0.length names0 = some (ren, names2) →
      ((cn.zip ren).filter (fun q => q.1.2)).map (fun q => q.2.2) =
        natRangeFrom names0.length (extLabels cn).length := by
  constructor
  · rcases runExport_singleDex hok with ⟨s, t, names2, g2, hpm, hrel, hout⟩
    rcases relabelStep_some hrel with ⟨ren, hloop, _, _, _⟩
    have hnames := relabelLoopGo_names hloop
    have hpmn := processMethods_names d ⟨[], []⟩ true hpm
    rw [hout]
    show names2 = _
    rw [hnames, hpmn]
    simp [localSigs]
  · intro names0 names2 ren hloop
    exact relabelLoopGo_extIds hloop

theorem c1_amended_witness :
    (runExport none [[⟨"M", 1, ⟨[0], [], [(0, [])]⟩⟩]]
      [("M", false), ("Y", true)] []).names = ["M", "Y"] := by
  have h := c1_amended none [⟨"M", 1, ⟨[0], [], [(0, [])]⟩⟩]
    [("M", false), ("Y", true)] [] (by decide)
  rw [h.1]
  decide

theorem closersOf_append (l1 l2 : List Chunk) :
    closersOf (l1 ++ l2) = closersOf l1 ++ closersOf l2 :=
  List.filterMap_append l1 l2 _

/-- Claim C2 (amended, proved): for a run over exactly one DEX object that
completes (with the call graph's edges over its own node table, as networkx
guarantees), `len(method_names) = L + E`, and every id in the `cg_edges`
source and target lists of the terminator is `< len(method_names)`. The
`acfg_list` edge lists are excluded: they hold per-method CFG node ids,
which are unrelated to `method_names` (see the counterexample). -/
theorem c2_amended (flt : Option (String → Bool)) (d : Dex)
    (cn : List (String × Bool)) (ce : List (Nat × Nat))
    (hok : (runExport flt [d] cn ce).ok = true)
    (hend : ∀ e ∈ ce, e.1 < cn.length ∧ e.2 < cn.length) :
    (runExport flt [d] cn ce).names.length =
      (localSigs flt d).length + (extLabels cn).length ∧
    ∀ q ∈ closersOf (runExport flt [d] cn ce).chunks,
      ∀ v, (v ∈ q.1 ∨ v ∈ q.2.1) → v < (runExport flt [d] cn ce).names.length := by
  rcases runExport_singleDex hok with ⟨s, t, names2, g2, hpm, hrel, hout⟩
  rcases relabelStep_some hrel with ⟨ren, hloop, hg2, hs, ht⟩
  have hpmn := processMethods_names d ⟨[], []⟩ true hpm
  have hnames := relabelLoopGo_names hloop
  constructor
  · rw [hout]
    show names2.length = _
    rw [hnames, hpmn]
    simp [localSigs]
  · intro q hq v hv
    rw [hout] at hq ⊢
    have hcl : closersOf (Chunk.openList ::
        ((processMethods flt d ⟨[], []⟩ true).1 ++ [Chunk.closeCg s t names2])) =
        [(s, t, names2)] := by
      show closersOf ((processMethods flt d ⟨[], []⟩ true).1 ++
        [Chunk.closeCg s t names2]) = _
      rw [closersOf_append, processMethods_closersOf d _ true]
      rfl
    rw [hcl] at hq
    have hqeq : q = (s, t, names2) := by simpa using hq
    subst hqeq
    show v < names2.length
    -- every id in the relabeled edge lists is a rename value of a node index
    have hbound : ∀ u, u ∈ g2.edges.map Prod.fst ∨ u ∈ g2.edges.map Prod.snd →
        u < names2.length := by
      intro u hu
      have hmem : ∃ p, p ∈ g2.edges ∧ (p.1 = u ∨ p.2 = u) := by
        rcases hu with hu | hu
        · rcases List.mem_map.mp hu with ⟨p, hp, hpe⟩
          exact ⟨p, hp, Or.inl hpe⟩
        · rcases List.mem_map.mp hu with ⟨p, hp, hpe⟩
          exact ⟨p, hp, Or.inr hpe⟩
      rcases hmem with ⟨p, hp, hpe⟩
      rw [hg2] at hp
      have hconv : convertNodeLabelsToIntegers ⟨List.range cn.length, ce⟩ =
          ⟨List.range cn.length, ce⟩ := convert_range hend
      rw [hconv] at hp
      have hp2 : p ∈ (ce.map (fun e =>
          (applyRename ren e.1, applyRename ren e.2))) :=
        mem_dedupFirstAux hp
      rcases List.mem_map.mp hp2 with ⟨e, he, hpe2⟩
      rcases hend e he with ⟨h1, h2⟩
      have hlk := relabelLoopGo_lookup hloop
      rcases hpe with hpe | hpe
      · rcases hlk e.1 (Nat.zero_le _) (by omega) with ⟨w, hw, hwlt⟩
        have : u = applyRename ren e.1 := by rw [← hpe, ← hpe2]
        rw [this, applyRename, hw]
        exact hwlt
      · rcases hlk e.2 (Nat.zero_le _) (by omega) with ⟨w, hw, hwlt⟩
        have : u = applyRename ren e.2 := by rw [← hpe, ← hpe2]
        rw [this, applyRename, hw]
        exact hwlt
    rcases hv with hv | hv
    · exact hbound v (Or.inl (by rw [← hs]; exact hv))
    · exact hbound v (Or.inr (by rw [← ht]; exact hv))

theorem c2_amended_witness :
    (runExport none [[⟨"M", 1, ⟨[0], [], [(0, [])]⟩⟩]]
      [("M", false), ("Y", true)] [(0, 1)]).names.length = 2 ∧
    ∀ q ∈ closersOf (runExport none [[⟨"M", 1, ⟨[0], [], [(0, [])]⟩⟩]]
      [("M", false), ("Y", true)] [(0, 1)]).chunks,
      ∀ v, (v ∈ q.1 ∨ v ∈ q.2.1) →
        v < (runExport none [[⟨"M", 1, ⟨[0], [], [(0, [])]⟩⟩]]
          [("M", false), ("Y", true)] [(0, 1)]).names.length := by
  have h := c2_amended none [⟨"M", 1, ⟨[0], [], [(0, [])]⟩⟩]
    [("M", false), ("Y", true)] [(0, 1)] (by decide) (by decide)
  exact ⟨h.1, h.2⟩

end AndroExport

namespace AndroExport

/-- Claim C6 (amended, proved): if zero methods qualify, the emitted
document has `acfg_list == []` and is well formed, with `cg_edges` and
`method_names` reflecting the call graph — provided the run yields exactly
one DEX object and the call graph consists of external nodes only (an
internal node would send `method_names.index` into an empty table and abort
the run: see the counterexample; a second DEX object would duplicate the
terminator: see the C9 theorem). -/
theorem c6_amended (flt : Option (String → Bool)) (d : Dex)
    (cn : List (String × Bool)) (ce : List (Nat × Nat))
    (hq : d.filter (qualifiesB flt) = [])
    (hext : ∀ p ∈ cn, p.2 = true)
    (hend : ∀ e ∈ ce, e.1 < cn.length ∧ e.2 < cn.length)
    (hnd : ce.Nodup) :
    runExport flt [d] cn ce =
      ⟨[Chunk.openList,
          Chunk.closeCg (ce.map Prod.fst) (ce.map Prod.snd) (cn.map Prod.fst)],
        cn.map Prod.fst, ⟨List.range cn.length, ce⟩, true⟩ ∧
    wellFormedDoc (runExport flt [d] cn ce).chunks = true ∧
    entriesOf (runExport flt [d] cn ce).chunks = [] := by
  have hpm := @processMethods_noQualifier flt d ⟨[], []⟩ true hq
  rcases relabelLoopGo_allExt hext 0 [] with ⟨ren, hloop, hid⟩
  have hfid : ∀ v, applyRename ren v = v := applyRename_id hid
  have hconv : convertNodeLabelsToIntegers ⟨List.range cn.length, ce⟩ =
      ⟨List.range cn.length, ce⟩ := convert_range hend
  have hgraph : relabelGraph (applyRename ren) ⟨List.range cn.length, ce⟩ =
      ⟨List.range cn.length, ce⟩ := by
    unfold relabelGraph
    simp only [CGraph.mk.injEq]
    constructor
    · rw [List.map_congr_left (fun a _ => hfid a), List.map_id']
      exact dedupFirst_eq_self (List.nodup_range _)
    · rw [show ce.map (fun e => (applyRename ren e.1, applyRename ren e.2)) =
        ce.map (fun e => e) from
          List.map_congr_left (by intro e _; simp [hfid]), List.map_id']
      exact dedupFirst_eq_self hnd
  have hrel : relabelStep cn ([] : List String) ⟨List.range cn.length, ce⟩ =
      some (cn.map Prod.fst, ⟨List.range cn.length, ce⟩,
        ce.map Prod.fst, ce.map Prod.snd) := by
    unfold relabelStep
    simp only [List.length_nil]
    rw [hloop]
    show some ([] ++ cn.map Prod.fst,
      relabelGraph (applyRename ren)
        (convertNodeLabelsToIntegers ⟨List.range cn.length, ce⟩),
      (relabelGraph (applyRename ren)
        (convertNodeLabelsToIntegers ⟨List.range cn.length, ce⟩)).edges.map Prod.fst,
      (relabelGraph (applyRename ren)
        (convertNodeLabelsToIntegers ⟨List.range cn.length, ce⟩)).edges.map Prod.snd) = _
    rw [hconv, hgraph]
    simp
  have hpd : processDex flt cn d ⟨[], []⟩ ⟨List.range cn.length, ce⟩ =
      ([Chunk.closeCg (ce.map Prod.fst) (ce.map Prod.snd) (cn.map Prod.fst)],
        ⟨[], cn.map Prod.fst⟩, ⟨List.range cn.length, ce⟩, true) := by
    unfold processDex
    rw [hpm]
    simp [hrel]
  have hrun : runExport flt [d] cn ce =
      ⟨[Chunk.openList,
          Chunk.closeCg (ce.map Prod.fst) (ce.map Prod.snd) (cn.map Prod.fst)],
        cn.map Prod.fst, ⟨List.range cn.length, ce⟩, true⟩ := by
    show (⟨Chunk.openList ::
        (runGo flt cn [d] ⟨[], []⟩ ⟨List.range cn.length, ce⟩).1,
      (runGo flt cn [d] ⟨[], []⟩ ⟨List.range cn.length, ce⟩).2.1.names,
      (runGo flt cn [d] ⟨[], []⟩ ⟨List.range cn.length, ce⟩).2.2.1,
      (runGo flt cn [d] ⟨[], []⟩ ⟨List.range cn.length, ce⟩).2.2.2⟩ : RunOut) = _
    rw [runGo, hpd]
    simp [runGo]
  refine ⟨hrun, ?_, ?_⟩
  · rw [hrun]
    rfl
  · rw [hrun]
    rfl

theorem c6_amended_witness :
    runExport (some (fun _ => false)) [[⟨"A", 1, ⟨[0], [], [(0, [])]⟩⟩]]
        [("X", true)] [(0, 0)] =
      ⟨[Chunk.openList, Chunk.closeCg [0] [0] ["X"]], ["X"],
        ⟨[0], [(0, 0)]⟩, true⟩ ∧
    wellFormedDoc (runExport (some (fun _ => false))
      [[⟨"A", 1, ⟨[0], [], [(0, [])]⟩⟩]] [("X", true)] [(0, 0)]).chunks = true := by
  have h := c6_amended (some (fun _ => false)) [⟨"A", 1, ⟨[0], [], [(0, [])]⟩⟩]
    [("X", true)] [(0, 0)] (by decide) (by decide) (by decide) (by decide)
  exact ⟨h.1, h.2.1⟩

end AndroExport

namespace AndroExport

/-- Claim C4 (amended, proved): when the induced node-id mapping is
injective on the graph's nodes (which duplicate labels can break: see the
counterexample), the relabeling step produces an isomorphic copy: the output
edge list is exactly the image of the input edge list under the mapping
(hence the same multiset of (source, target) pairs), the edge count is
unchanged, and no node is dropped. -/
theorem c4_amended (cn : List (String × Bool)) (names : List String)
    (g : CGraph) (ren : List (Nat × Nat)) (names2 : List String)
    (hloop : relabelLoopGo cn 0 names.length names = some (ren, names2))
    (hedges : g.edges.Nodup)
    (hend : ∀ e ∈ g.edges, e.1 ∈ g.nodes ∧ e.2 ∈ g.nodes)
    (hinj : ∀ i, i < g.nodes.length → ∀ j, j < g.nodes.length →
      applyRename ren i = applyRename ren j → i = j) :
    ∃ g2 s t, relabelStep cn names g = some (names2, g2, s, t) ∧
      g2.nodes = (List.range g.nodes.length).map (applyRename ren) ∧
      g2.edges = g.edges.map (fun e =>
        (applyRename ren (posIn g.nodes e.1),
          applyRename ren (posIn g.nodes e.2))) ∧
      g2.nodes.length = g.nodes.length ∧
      g2.edges.length = g.edges.length := by
  have hstep : relabelStep cn names g = some (names2,
      relabelGraph (applyRename ren) (convertNodeLabelsToIntegers g),
      (relabelGraph (applyRename ren) (convertNodeLabelsToIntegers g)).edges.map
        Prod.fst,
      (relabelGraph (applyRename ren) (convertNodeLabelsToIntegers g)).edges.map
        Prod.snd) := by
    unfold relabelStep
    rw [hloop]
  have hinjOn : ∀ x ∈ List.range g.nodes.length, ∀ y ∈ List.range g.nodes.length,
      applyRename ren x = applyRename ren y → x = y := by
    intro x hx y hy hxy
    exact hinj x (List.mem_range.mp hx) y (List.mem_range.mp hy) hxy
  have hnodes2 : (relabelGraph (applyRename ren)
      (convertNodeLabelsToIntegers g)).nodes =
      (List.range g.nodes.length).map (applyRename ren) := by
    show dedupFirst ((List.range g.nodes.length).map (applyRename ren)) = _
    exact dedupFirst_eq_self ((List.nodup_range _).map_on hinjOn)
  have hcomb : ((g.edges.map (fun e => (posIn g.nodes e.1, posIn g.nodes e.2))).map
      (fun e => (applyRename ren e.1, applyRename ren e.2))) =
      g.edges.map (fun e =>
        (applyRename ren (posIn g.nodes e.1), applyRename ren (posIn g.nodes e.2))) := by
    rw [List.map_map]
    rfl
  have hmapNodup : (g.edges.map (fun e =>
      (applyRename ren (posIn g.nodes e.1),
        applyRename ren (posIn g.nodes e.2)))).Nodup := by
    refine hedges.map_on ?_
    intro x hx y hy hxy
    rcases hend x hx with ⟨hx1, hx2⟩
    rcases hend y hy with ⟨hy1, hy2⟩
    simp only [Prod.mk.injEq] at hxy
    have h1 : x.1 = y.1 := posIn_inj hx1 hy1
      (hinj _ (posIn_lt hx1) _ (posIn_lt hy1) hxy.1)
    have h2 : x.2 = y.2 := posIn_inj hx2 hy2
      (hinj _ (posIn_lt hx2) _ (posIn_lt hy2) hxy.2)
    exact Prod.ext h1 h2
  have hedges2 : (relabelGraph (applyRename ren)
      (convertNodeLabelsToIntegers g)).edges =
      g.edges.map (fun e =>
        (applyRename ren (posIn g.nodes e.1),
          applyRename ren (posIn g.nodes e.2))) := by
    show dedupFirst ((g.edges.map (fun e =>
      (posIn g.nodes e.1, posIn g.nodes e.2))).map
        (fun e => (applyRename ren e.1, applyRename ren e.2))) = _
    rw [hcomb]
    exact dedupFirst_eq_self hmapNodup
  refine ⟨relabelGraph (applyRename ren) (convertNodeLabelsToIntegers g),
    (relabelGraph (applyRename ren) (convertNodeLabelsToIntegers g)).edges.map
      Prod.fst,
    (relabelGraph (applyRename ren) (convertNodeLabelsToIntegers g)).edges.map
      Prod.snd, hstep, hnodes2, hedges2, ?_, ?_⟩
  · rw [hnodes2]; simp
  · rw [hedges2]; simp

theorem c4_amended_witness :
    ∃ g2 s t, relabelStep [("A", false), ("X", true)] ["A"]
        ⟨[0, 1], [(0, 1)]⟩ = some (["A", "X"], g2, s, t) ∧
      g2.nodes = (List.range 2).map (applyRename [(0, 0), (1, 1)]) ∧
      g2.edges = [((0 : Nat), (1 : Nat))].map (fun e =>
        (applyRename [(0, 0), (1, 1)] (posIn [0, 1] e.1),
          applyRename [(0, 0), (1, 1)] (posIn [0, 1] e.2))) ∧
      g2.nodes.length = 2 ∧ g2.edges.length = 1 :=
  c4_amended [("A", false), ("X", true)] ["A"] ⟨[0, 1], [(0, 1)]⟩
    [(0, 0), (1, 1)] ["A", "X"] (by decide) (by decide) (by decide) (by decide)

end AndroExport

namespace AndroExport

/-- Claim C5 (confirmed): the `len(features) == node_count` contract is
checked per method at extraction time; the streamed entries are exactly the
qualifying methods up to (excluding) the first violator — the violator is
registered but never written, nothing after it runs, there is no retry — and
the loop aborts iff some qualifying method violates the contract;
consequently a run that completes had no violation in any DEX object. -/
theorem c5_feature_invariant :
    (∀ (flt : Option (String → Bool)) (ms : List Method) (st : PmState)
      (first : Bool),
      entriesOf (processMethods flt ms st first).1 =
        ((ms.filter (qualifiesB flt)).takeWhile validCfgB).map
          (fun m => mkEntry m.cfg) ∧
      (processMethods flt ms st first).2.2 =
        (ms.filter (qualifiesB flt)).all validCfgB) ∧
    (∀ (flt : Option (String → Bool)) (dexes : List Dex)
      (cn : List (String × Bool)) (ce : List (Nat × Nat)),
      (runExport flt dexes cn ce).ok = true →
      ∀ d ∈ dexes, (d.filter (qualifiesB flt)).all validCfgB = true) := by
  constructor
  · intro flt ms st first
    exact ⟨processMethods_entries ms st first, processMethods_ok ms st first⟩
  · intro flt dexes cn ce hok d hd
    exact runGo_allValid dexes _ _ hok d hd

theorem c5_feature_invariant_witness :
    (([⟨"A", 1, ⟨[0], [], [(0, [])]⟩⟩] : Dex).filter (qualifiesB none)).all
      validCfgB = true :=
  c5_feature_invariant.2 none [[⟨"A", 1, ⟨[0], [], [(0, [])]⟩⟩]]
    [("A", false)] [] (by decide) [⟨"A", 1, ⟨[0], [], [(0, [])]⟩⟩] (by decide)

/-- Claim C9 (confirmed): the document terminator is written once per DEX
object (the `first_iteration` comma state being reset each time), so a
completed run's chunk stream holds exactly `len(dexes)` terminators and is a
single well-formed JSON document iff the application yields exactly one DEX
object; with zero DEX objects the file holds only the opening fragment
`{"acfg_list": [`, which is not valid JSON. -/
theorem c9_terminator_per_dex (flt : Option (String → Bool)) (dexes : List Dex)
    (cn : List (String × Bool)) (ce : List (Nat × Nat)) :
    ((runExport flt dexes cn ce).ok = true →
      (runExport flt dexes cn ce).chunks.countP isClose = dexes.length ∧
      (wellFormedDoc (runExport flt dexes cn ce).chunks = true ↔
        dexes.length = 1)) ∧
    (dexes = [] →
      (runExport flt dexes cn ce).chunks = [Chunk.openList] ∧
      wellFormedDoc (runExport flt dexes cn ce).chunks = false ∧
      renderChunks (runExport flt dexes cn ce).chunks = "\x7b\"acfg_list\": [") := by
  constructor
  · intro hok
    have hok' : (runGo flt cn dexes ⟨[], []⟩
        ⟨List.range cn.length, ce⟩).2.2.2 = true := hok
    constructor
    · show (Chunk.openList ::
        (runGo flt cn dexes ⟨[], []⟩ ⟨List.range cn.length, ce⟩).1).countP
          isClose = dexes.length
      rw [List.countP_cons, runGo_countClose dexes _ _ hok']
      simp [isClose]
    · cases dexes with
      | nil =>
        constructor
        · intro hwf
          exact absurd hwf (by rw [runExport_nil]; simp [wellFormedDoc, checkBody])
        · intro hlen
          simp at hlen
      | cons d ds =>
        cases ds with
        | nil =>
          rcases runExport_singleDex hok with ⟨s, t, n2, g2, hpm, hrel, hout⟩
          constructor
          · intro _; rfl
          · intro _
            rw [hout]
            show checkBody ((processMethods flt d ⟨[], []⟩ true).1 ++
              [Chunk.closeCg s t n2]) false = true
            exact checkBody_close d ⟨[], []⟩ true s t n2
        | cons d2 ds2 =>
          rcases runGo_cons_ok hok' with ⟨hpd, heq, hok2⟩
          rcases processDex_ok_shape hpd with ⟨s, t, n2, g2, hpm, hrel, hshape⟩
          have h1 : (runGo flt cn (d :: d2 :: ds2) ⟨[], []⟩
              ⟨List.range cn.length, ce⟩).1 =
              (processDex flt cn d ⟨[], []⟩ ⟨List.range cn.length, ce⟩).1 ++
                (runGo flt cn (d2 :: ds2)
                  (processDex flt cn d ⟨[], []⟩ ⟨List.range cn.length, ce⟩).2.1
                  (processDex flt cn d ⟨[], []⟩
                    ⟨List.range cn.length, ce⟩).2.2.1).1 :=
            congrArg Prod.fst heq
          have hpd1 : (processDex flt cn d ⟨[], []⟩
              ⟨List.range cn.length, ce⟩).1 =
              (processMethods flt d ⟨[], []⟩ true).1 ++ [Chunk.closeCg s t n2] :=
            congrArg Prod.fst hshape
          have hcnt := runGo_countClose (d2 :: ds2) _ _ hok2
          constructor
          · intro hwf
            exfalso
            rcases hsplit : (runGo flt cn (d2 :: ds2)
                (processDex flt cn d ⟨[], []⟩ ⟨List.range cn.length, ce⟩).2.1
                (processDex flt cn d ⟨[], []⟩
                  ⟨List.range cn.length, ce⟩).2.2.1).1 with _ | ⟨c, rest⟩
            · rw [hsplit] at hcnt
              simp at hcnt
            · have hwf' : checkBody ((runGo flt cn (d :: d2 :: ds2) ⟨[], []⟩
                  ⟨List.range cn.length, ce⟩).1) false = true := hwf
              rw [h1, hpd1, hsplit, List.append_assoc,
                List.singleton_append] at hwf'
              have hfalse := @checkBody_close_tail flt d ⟨[], []⟩ true
                s t n2 c rest
              simp only [Bool.not_true] at hfalse
              rw [hfalse] at hwf'
              cases hwf'
          · intro hlen
            simp at hlen
  · intro hdex
    subst hdex
    refine ⟨rfl, rfl, ?_⟩
    rfl

theorem c9_terminator_per_dex_witness :
    ((runExport none [[⟨"A", 1, ⟨[0], [], [(0, [])]⟩⟩]]
        [("A", false)] []).chunks.countP isClose = 1 ∧
      (wellFormedDoc (runExport none [[⟨"A", 1, ⟨[0], [], [(0, [])]⟩⟩]]
        [("A", false)] []).chunks = true ↔ (1 : Nat) = 1)) ∧
    ((runExport none ([] : List Dex) [("A", false)] []).chunks =
        [Chunk.openList] ∧
      wellFormedDoc (runExport none ([] : List Dex)
        [("A", false)] []).chunks = false ∧
      renderChunks (runExport none ([] : List Dex)
        [("A", false)] []).chunks = "\x7b\"acfg_list\": [") :=
  ⟨(c9_terminator_per_dex none [[⟨"A", 1, ⟨[0], [], [(0, [])]⟩⟩]]
      [("A", false)] []).1 (by decide),
    (c9_terminator_per_dex none [] [("A", false)] []).2 rfl⟩

end AndroExport
